import Mathlib

/-!
# Musify: queue / playback engine of `static/app.js`

A shallow embedding of the queue and playback state machine of
`src/static/app.js`.  The global `state` object becomes the record `State`,
every function that mutates it becomes a function `State → … → State`
(returning a pair when the JavaScript function also returns a value).

Modelling decisions:

* Songs are file-name strings.  An array read outside the bounds yields the
  JavaScript value `undefined`, so the element type has that extra value.
* Indices are JavaScript numbers used as integers; they are `Int`, so that the
  guards `index >= 0` are meaningful.
* `Math.floor(Math.random() * (i + 1))` is a free choice in `{0,…,i}`; a shuffle
  takes a function `rnd` and uses `rnd i % (i + 1)` at loop index `i`.
* The commands sent to the `<audio>` element and the payload requests are
  recorded, in order, in the field `log`.  `isPlaying` is written only where
  the source writes it (the `play` / `pause` listeners and `clearQueue`).
* `await loadSongData(song)` is modelled by an oracle `load` giving the
  payload (`none` for `null`); the code after the `await` touches only the
  audio element and the view, never `queue` or `currentIndex`.
* DOM rendering, toasts and the selection set do not write the fields
  modelled here and are left out; of `renderLibrary` only the computation of
  `filteredSongs` is modelled, on the library of file names.
* Of the React component (`music-player-shadcn.jsx`) the state cells and the
  handlers `addToQueue`, `toggleRepeat` and the Clear Queue button are modelled,
  in the namespace `React`.
-/

namespace Musify

/-- An element of the queue: a song file name, or the JavaScript value
`undefined` (what an out-of-range array read returns). -/
inductive Song where
  | file (name : String)
  | undefined
  deriving DecidableEq, Repr

/-- The values of `state.repeatMode`: `'off'`, `'all'`, `'one'`. -/
inductive RepeatMode where
  | off
  | all
  | one
  deriving DecidableEq, Repr

/-- Commands issued to the collaborators, in the order they are issued. -/
inductive Effect where
  /-- `fetch('/api/song/' + song)` inside `loadSongData`. -/
  | fetch (song : Song)
  /-- `state.audioPlayer.src = src`. -/
  | setSrc (src : String)
  /-- `state.audioPlayer.play()`. -/
  | play
  /-- `state.audioPlayer.pause()`. -/
  | pause
  /-- `state.audioPlayer.currentTime = t`. -/
  | seek (t : Nat)
  deriving DecidableEq, Repr

/-- The global `state` object of `app.js` (lines 2-10), with the command log. -/
structure State where
  allSongs : List Song
  queue : List Song
  currentIndex : Int
  repeatMode : RepeatMode
  isPlaying : Bool
  log : List Effect
  deriving DecidableEq, Repr

/-- The state built by the declaration at the top of `app.js`. -/
def initialState : State :=
  { allSongs := [], queue := [], currentIndex := 0, repeatMode := RepeatMode.off,
    isPlaying := false, log := [] }

/-- Array read `a[i]`: `undefined` unless `0 ≤ i < a.length`. -/
def arrayGet (a : List Song) (i : Int) : Song :=
  if 0 ≤ i then a.getD i.toNat Song.undefined else Song.undefined

/-- The array left by `a.splice(start, 1)`: a negative `start` counts back from
`a.length`, and a `start` at or past `a.length` removes nothing. -/
def splice1 (a : List Song) (start : Int) : List Song :=
  let len : Int := a.length
  let actualStart : Int := if start < 0 then max (len + start) 0 else min start len
  a.eraseIdx actualStart.toNat

/-- The destructuring swap `[a[i], a[j]] = [a[j], a[i]]`.  Both indices are in
range wherever the source performs it; otherwise the array is returned as is. -/
def swap (a : List Song) (i j : Nat) : List Song :=
  match a[i]?, a[j]? with
  | some x, some y => (a.set i y).set j x
  | _, _ => a

/-- The loop `for (let i = …; i > 0; i--) { j = floor(random() * (i + 1)); swap }`
entered with loop variable `i`. -/
def fisherYatesLoop (rnd : Nat → Nat) : Nat → List Song → List Song
  | 0, a => a
  | i + 1, a => fisherYatesLoop rnd i (swap a (i + 1) (rnd (i + 1) % (i + 2)))

/-- The Fisher-Yates shuffle of `shuffleQueue` and `shuffleAll`: the loop starts
at `a.length - 1`. -/
def fisherYates (rnd : Nat → Nat) (a : List Song) : List Song :=
  fisherYatesLoop rnd (a.length - 1) a

/-- `addToQueue(song)`, lines 85-93. -/
def addToQueue (s : State) (song : Song) : Bool × State :=
  if song ∉ s.queue then (true, { s with queue := s.queue ++ [song] })
  else (false, s)

/-- `addMultipleToQueue(songs)`, lines 95-103: the pair is `(added, state)`. -/
def addMultipleToQueue (s : State) (songs : List Song) : Nat × State :=
  songs.foldl
    (fun (acc : Nat × State) song =>
      let r := addToQueue acc.2 song
      (if r.1 then acc.1 + 1 else acc.1, r.2))
    (0, s)

/-- `removeFromQueue(index)`, lines 105-117. -/
def removeFromQueue (s : State) (index : Int) : State :=
  if 0 ≤ index ∧ index < s.queue.length then
    let queue := splice1 s.queue index
    if (queue.length : Int) ≤ s.currentIndex ∧ 0 < s.currentIndex then
      { s with queue := queue, currentIndex := s.currentIndex - 1 }
    else
      { s with queue := queue }
  else s

/-- `clearQueue()`, lines 119-128. -/
def clearQueue (s : State) : State :=
  { s with queue := [], currentIndex := 0, isPlaying := false,
           log := s.log ++ [Effect.pause, Effect.setSrc ""] }

/-- `shuffleQueue()`, lines 130-148. -/
def shuffleQueue (s : State) (rnd : Nat → Nat) : State :=
  if 1 < s.queue.length then
    let currentSong := arrayGet s.queue s.currentIndex
    let remaining := fisherYates rnd (splice1 s.queue s.currentIndex)
    { s with queue := currentSong :: remaining, currentIndex := 0 }
  else s

/-- `playNext()`, lines 151-160: the pair is `(returned value, state)`. -/
def playNext (s : State) : Bool × State :=
  if s.currentIndex < (s.queue.length : Int) - 1 then
    (true, { s with currentIndex := s.currentIndex + 1 })
  else if s.repeatMode = RepeatMode.all then
    (true, { s with currentIndex := 0 })
  else (false, s)

/-- `playSongAtIndex(index)`, lines 169-191.  `load song` is what
`await loadSongData(song)` yields; the test `if (audioData)` fails on `null`
and on the empty string. -/
def playSongAtIndex (s : State) (index : Int) (load : Song → Option String) : State :=
  if 0 ≤ index ∧ index < s.queue.length then
    let song := arrayGet s.queue index
    let s1 := { s with currentIndex := index, log := s.log ++ [Effect.fetch song] }
    match load song with
    | some audioData =>
      if audioData ≠ "" then
        { s1 with log := s1.log ++
            [Effect.setSrc ("data:audio/mp3;base64," ++ audioData), Effect.play] }
      else s1
    | none => s1
  else s

/-- `playPrevious()`, lines 162-167. -/
def playPrevious (s : State) (load : Song → Option String) : State :=
  if 0 < s.currentIndex then
    let s1 := { s with currentIndex := s.currentIndex - 1 }
    playSongAtIndex s1 s1.currentIndex load
  else s

/-- `handleSongEnded()`, lines 69-82. -/
def handleSongEnded (s : State) (load : Song → Option String) : State :=
  if s.repeatMode = RepeatMode.one then
    { s with log := s.log ++ [Effect.seek 0, Effect.play] }
  else
    let r := playNext s
    if r.1 then playSongAtIndex r.2 r.2.currentIndex load
    else if r.2.repeatMode = RepeatMode.all then
      playSongAtIndex { r.2 with currentIndex := 0 } 0 load
    else r.2

/-- The array `modes` of `toggleRepeat`. -/
def modes : List RepeatMode := [RepeatMode.off, RepeatMode.all, RepeatMode.one]

/-- `toggleRepeat()`, lines 193-201. -/
def toggleRepeat (s : State) : State :=
  let currentIdx := modes.indexOf s.repeatMode
  { s with repeatMode := modes.getD ((currentIdx + 1) % modes.length) RepeatMode.off }

/-- `playSongNow(song)`, lines 368-373. -/
def playSongNow (s : State) (song : Song) (load : Song → Option String) : State :=
  playSongAtIndex { s with queue := [song], currentIndex := 0 } 0 load

/-- `playAll()`, lines 375-380. -/
def playAll (s : State) (load : Song → Option String) : State :=
  playSongAtIndex { s with queue := s.allSongs, currentIndex := 0 } 0 load

/-- `shuffleAll()`, lines 382-394. -/
def shuffleAll (s : State) (rnd : Nat → Nat) (load : Song → Option String) : State :=
  playSongAtIndex { s with queue := fisherYates rnd s.allSongs, currentIndex := 0 } 0 load

/-- The `play` listener installed by `setupAudioPlayer`, lines 58-61. -/
def onAudioPlay (s : State) : State := { s with isPlaying := true }

/-- The `pause` listener installed by `setupAudioPlayer`, lines 63-66. -/
def onAudioPause (s : State) : State := { s with isPlaying := false }

/-- The successful branch of `loadSongs`, lines 26-30. -/
def songsLoaded (s : State) (songs : List Song) : State := { s with allSongs := songs }

/-- One call of an engine operation, with its arguments, the random choices it
draws and the payload oracle it awaits; the last three are the events of the
environment that write `state`. -/
inductive Op where
  | addToQueue (song : Song)
  | addMultipleToQueue (songs : List Song)
  | removeFromQueue (index : Int)
  | clearQueue
  | shuffleQueue (rnd : Nat → Nat)
  | playNext
  | playPrevious (load : Song → Option String)
  | playSongAtIndex (index : Int) (load : Song → Option String)
  | toggleRepeat
  | handleSongEnded (load : Song → Option String)
  | playSongNow (song : Song) (load : Song → Option String)
  | playAll (load : Song → Option String)
  | shuffleAll (rnd : Nat → Nat) (load : Song → Option String)
  | audioPlay
  | audioPause
  | songsLoaded (songs : List Song)

/-- The state after one operation. -/
def step (s : State) : Op → State
  | Op.addToQueue song => (addToQueue s song).2
  | Op.addMultipleToQueue songs => (addMultipleToQueue s songs).2
  | Op.removeFromQueue index => removeFromQueue s index
  | Op.clearQueue => clearQueue s
  | Op.shuffleQueue rnd => shuffleQueue s rnd
  | Op.playNext => (playNext s).2
  | Op.playPrevious load => playPrevious s load
  | Op.playSongAtIndex index load => playSongAtIndex s index load
  | Op.toggleRepeat => toggleRepeat s
  | Op.handleSongEnded load => handleSongEnded s load
  | Op.playSongNow song load => playSongNow s song load
  | Op.playAll load => playAll s load
  | Op.shuffleAll rnd load => shuffleAll s rnd load
  | Op.audioPlay => onAudioPlay s
  | Op.audioPause => onAudioPause s
  | Op.songsLoaded songs => songsLoaded s songs

/-- The state after a sequence of operations, first to last. -/
def run (s : State) (ops : List Op) : State := ops.foldl step s

/-- The index invariant of the data model: the current index points into a
non-empty queue, and is `0` when the queue is empty. -/
def IndexInv (s : State) : Prop :=
  (s.queue ≠ [] → 0 ≤ s.currentIndex ∧ s.currentIndex < s.queue.length) ∧
  (s.queue = [] → s.currentIndex = 0)

instance (s : State) : Decidable (IndexInv s) := by
  unfold IndexInv; infer_instance

/-- The tracks of `songs` that come after the list `pre` of tracks already
handled: the entry at position `i` of `pre ++ xs` is kept when it is not in `old`
and does not occur at an earlier position. -/
def newFrom (old pre xs : List Song) : List Song :=
  ((xs.enumFrom pre.length).filter
    (fun p => decide (p.2 ∉ old) && decide (p.2 ∉ (pre ++ xs).take p.1))).map Prod.snd

/-- What the specification of `addMultipleToQueue` appends to a queue `old`: the
first occurrences, in input order, of the input tracks not already queued.  The
entry at position `i` of `songs` is kept when it is not in `old` and does not
occur at an earlier position of `songs`. -/
def firstNewOccurrences (old songs : List Song) : List Song :=
  (songs.enum.filter
    (fun p => decide (p.2 ∉ old) && decide (p.2 ∉ songs.take p.1))).map Prod.snd

/-! ## Sequences of random choices -/

/-- A sequence of choices for shuffling `n` elements: one entry for each loop
index `i = 1, …, n - 1`, the entry at position `i - 1` being the index
`j ∈ {0, …, i}` drawn at loop index `i`. -/
def ValidChoices (n : Nat) (cs : List Nat) : Prop :=
  cs.length = n - 1 ∧ ∀ k, k < cs.length → cs.getD k 0 ≤ k + 1

instance (n : Nat) (cs : List Nat) : Decidable (ValidChoices n cs) := by
  unfold ValidChoices; infer_instance

/-- The random source that draws, at loop index `i`, the choice recorded for `i`. -/
def choiceSource (cs : List Nat) : Nat → Nat := fun i => cs.getD (i - 1) 0

/-! ## The queue of the React component (`music-player-shadcn.jsx`) -/

namespace React

/-- The song objects built by `handleFileUpload`, lines 83-89 of the component. -/
structure SongData where
  id : String
  name : String
  data : String
  size : Nat
  uploadedAt : String
  deriving DecidableEq, Repr

/-- `addToQueue(song)` of the component, lines 147-151: the value passed to
`setQueue`, or the current `queue` when `queue.find` returns an element. -/
def addToQueue (queue : List SongData) (song : SongData) : List SongData :=
  match queue.find? (fun s => s.id == song.id) with
  | none => queue ++ [song]
  | some _ => queue

/-- The `useState` cells of the component, lines 10-16. -/
structure State where
  songs : List SongData
  queue : List SongData
  currentIndex : Int
  isPlaying : Bool
  repeatMode : RepeatMode
  searchQuery : String
  selectedSongs : List SongData
  deriving DecidableEq, Repr

/-- `toggleRepeat()` of the component, lines 140-144. -/
def toggleRepeat (s : State) : State :=
  let nextMode := modes.getD ((modes.indexOf s.repeatMode + 1) % modes.length) RepeatMode.off
  { s with repeatMode := nextMode }

/-- The `onClick` handler of the Clear Queue button, line 469: `setQueue([])`. -/
def clearQueueOnClick (s : State) : State := { s with queue := [] }

end React

/-! ## Library filtering (`renderLibrary`) -/

/-- `haystack.includes(needle)` on strings: some position of `haystack` starts a
copy of `needle`. -/
def includes (haystack needle : String) : Bool :=
  (List.range (haystack.data.length + 1)).any
    (fun k => decide ((haystack.data.drop k).take needle.data.length = needle.data))

/-- `text.replace(pat, '')` on characters, for a string pattern `pat`: the first
occurrence of `pat` is removed. -/
def removeFirst (pat : List Char) : List Char → List Char
  | [] => []
  | c :: cs =>
    if (c :: cs).take pat.length = pat then (c :: cs).drop pat.length
    else c :: removeFirst pat cs

/-- The display name `song.replace('.pkl', '')` of lines 212, 277 and 309. -/
def displayName (song : String) : String :=
  String.mk (removeFirst ".pkl".data song.data)

/-- The array `filteredSongs` computed by `renderLibrary`, lines 292-296, from
the library of file names and the text of the search box.  `toLowerCase` is
the JavaScript string method, taken as a parameter. -/
def filteredSongs (toLowerCase : String → String) (allSongs : List String)
    (searchInput : String) : List String :=
  let searchQuery := toLowerCase searchInput
  allSongs.filter (fun song => includes (toLowerCase song) searchQuery)

/-- The filter the specification describes: the tracks whose display name
contains the query, ignoring case, in library order. -/
def filterByDisplayName (toLowerCase : String → String) (allSongs : List String)
    (query : String) : List String :=
  allSongs.filter (fun song => includes (toLowerCase (displayName song)) (toLowerCase query))

/-- Lower-casing of the letters `A`-`Z`; it agrees with `toLowerCase` on ASCII
strings. -/
def asciiLower (text : String) : String :=
  String.mk (text.data.map Char.toLower)

/-! ## Concrete inputs used by the examples -/

/-- Track `A`. -/
def songA : Song := Song.file "A.pkl"

/-- Track `B`. -/
def songB : Song := Song.file "B.pkl"

/-- Track `C`. -/
def songC : Song := Song.file "C.pkl"

/-- Queue `[A, B, C]` with `C` current, repeat mode `off`, nothing playing. -/
def atLastOff : State :=
  { initialState with queue := [songA, songB, songC], currentIndex := 2 }

/-- Queue `[A, B, C]` with `C` current, repeat mode `off`, while `C` is still
playing (`isPlaying = true`). -/
def atLastOffPlaying : State := { atLastOff with isPlaying := true }

/-- Queue `[A, B, C]` with `C` current and repeat mode `all`. -/
def atLastAll : State := { atLastOff with repeatMode := RepeatMode.all }

/-- Queue `[A, B, C]` with `B` current and repeat mode `one`. -/
def atMiddleOne : State :=
  { atLastOff with currentIndex := 1, repeatMode := RepeatMode.one }

/-- Queue `[A, B, C]` with `A` current and repeat mode `all`. -/
def atFirstAll : State := { atLastAll with currentIndex := 0 }

/-- Queue `[A]` with `A` current and playing. -/
def singlePlaying : State :=
  { initialState with queue := [songA], isPlaying := true }

/-- The React component with queue `[A, B, C]` and `C` current. -/
def reactAtLast : React.State :=
  { songs := [], currentIndex := 2, isPlaying := true, repeatMode := RepeatMode.off,
    searchQuery := "", selectedSongs := [],
    queue := [⟨"song:1", "A", "", 0, ""⟩, ⟨"song:2", "B", "", 0, ""⟩,
              ⟨"song:3", "C", "", 0, ""⟩] }

/-- A payload oracle under which every fetch succeeds. -/
def loadOk : Song → Option String := fun _ => some "QUJD"

/-- A run of the engine: load a library, play it, skip twice, shuffle, remove
tracks until the queue is empty, then add one again. -/
def demoOps : List Op :=
  [Op.songsLoaded [songA, songB, songC], Op.playAll loadOk, Op.playNext, Op.playNext,
   Op.shuffleQueue (fun i => i + 1), Op.removeFromQueue 2,
   Op.handleSongEnded (fun _ => none), Op.removeFromQueue 1, Op.removeFromQueue 0,
   Op.addToQueue songB]

/-! ## Auxiliary facts about the array primitives -/

theorem indexInv_iff (s : State) :
    IndexInv s ↔ 0 ≤ s.currentIndex ∧
      (s.currentIndex < s.queue.length ∨ (s.queue.length = 0 ∧ s.currentIndex = 0)) := by
  unfold IndexInv
  cases hq : s.queue with
  | nil =>
    simp only [ne_eq, not_true_eq_false, false_implies, true_implies, true_and,
      List.length_nil, Nat.cast_zero]
    omega
  | cons x t =>
    simp only [ne_eq, reduceCtorEq, not_false_eq_true, true_implies, false_implies, and_true,
      List.length_cons, Nat.succ_ne_zero, false_and, or_false]

theorem splice1_of_inBounds (a : List Song) (i : Int) (h0 : 0 ≤ i) (h1 : i < a.length) :
    splice1 a i = a.eraseIdx i.toNat := by
  unfold splice1
  have h2 : ¬ i < 0 := by omega
  simp only [h2, if_false]
  congr 1
  omega

theorem length_splice1_of_inBounds (a : List Song) (i : Int) (h0 : 0 ≤ i)
    (h1 : i < a.length) : (splice1 a i).length = a.length - 1 := by
  rw [splice1_of_inBounds a i h0 h1, List.length_eraseIdx]
  have : i.toNat < a.length := by omega
  simp [this]

theorem cons_set_perm (t : List Song) (j : Nat) (x y : Song) (h : t[j]? = some y) :
    List.Perm (y :: t.set j x) (x :: t) := by
  induction t generalizing j with
  | nil => simp at h
  | cons z t ih =>
    cases j with
    | zero =>
      simp only [List.getElem?_cons_zero, Option.some.injEq] at h
      subst h
      simpa using List.Perm.swap x z t
    | succ j =>
      simp only [List.getElem?_cons_succ] at h
      simp only [List.set_cons_succ]
      exact (List.Perm.swap z y _).trans (((ih j h).cons z).trans (List.Perm.swap x z t))

theorem set_set_perm (a : List Song) (i j : Nat) (x y : Song) (hi : a[i]? = some x)
    (hj : a[j]? = some y) : List.Perm ((a.set i y).set j x) a := by
  induction a generalizing i j with
  | nil => simp at hi
  | cons z t ih =>
    cases i with
    | zero =>
      simp only [List.getElem?_cons_zero, Option.some.injEq] at hi
      subst hi
      cases j with
      | zero =>
        simp only [List.getElem?_cons_zero, Option.some.injEq] at hj
        subst hj
        simp
      | succ j =>
        simp only [List.getElem?_cons_succ] at hj
        simpa using cons_set_perm t j z y hj
    | succ i =>
      simp only [List.getElem?_cons_succ] at hi
      cases j with
      | zero =>
        simp only [List.getElem?_cons_zero, Option.some.injEq] at hj
        subst hj
        simpa using cons_set_perm t i z x hi
      | succ j =>
        simp only [List.getElem?_cons_succ] at hj
        simpa using (ih i j hi hj).cons z

theorem swap_perm (a : List Song) (i j : Nat) : List.Perm (swap a i j) a := by
  unfold swap
  split
  · next x y hx hy => exact set_set_perm a i j x y hx hy
  · exact List.Perm.refl a

theorem fisherYatesLoop_perm (rnd : Nat → Nat) (i : Nat) (a : List Song) :
    List.Perm (fisherYatesLoop rnd i a) a := by
  induction i generalizing a with
  | zero => exact List.Perm.refl a
  | succ i ih =>
    simp only [fisherYatesLoop]
    exact (ih _).trans (swap_perm a _ _)

theorem fisherYates_perm (rnd : Nat → Nat) (a : List Song) :
    List.Perm (fisherYates rnd a) a :=
  fisherYatesLoop_perm rnd _ a

theorem length_fisherYates (rnd : Nat → Nat) (a : List Song) :
    (fisherYates rnd a).length = a.length :=
  (fisherYates_perm rnd a).length_eq

/-! ## Preservation of the index invariant, operation by operation -/

theorem playSongAtIndex_queue (s : State) (index : Int) (load : Song → Option String) :
    (playSongAtIndex s index load).queue = s.queue := by
  unfold playSongAtIndex
  split
  · dsimp only
    split
    · split <;> rfl
    · rfl
  · rfl

theorem playSongAtIndex_currentIndex (s : State) (index : Int) (load : Song → Option String) :
    (playSongAtIndex s index load).currentIndex =
      if 0 ≤ index ∧ index < s.queue.length then index else s.currentIndex := by
  unfold playSongAtIndex
  split
  · dsimp only
    split
    · split <;> rfl
    · rfl
  · rfl

theorem indexInv_playSongAtIndex (s : State) (index : Int) (load : Song → Option String)
    (h : IndexInv s) : IndexInv (playSongAtIndex s index load) := by
  rw [indexInv_iff] at h ⊢
  rw [playSongAtIndex_queue, playSongAtIndex_currentIndex]
  split <;> omega

theorem indexInv_addToQueue (s : State) (song : Song) (h : IndexInv s) :
    IndexInv (addToQueue s song).2 := by
  rw [indexInv_iff] at h ⊢
  unfold addToQueue
  split
  · simp only [List.length_append, List.length_singleton, Nat.cast_add, Nat.cast_one]
    omega
  · exact h

theorem indexInv_foldl_addToQueue (songs : List Song) (acc : Nat × State)
    (h : IndexInv acc.2) :
    IndexInv (songs.foldl
      (fun (acc : Nat × State) song =>
        let r := addToQueue acc.2 song
        (if r.1 then acc.1 + 1 else acc.1, r.2)) acc).2 := by
  induction songs generalizing acc with
  | nil => exact h
  | cons x t ih =>
    simp only [List.foldl_cons]
    exact ih _ (indexInv_addToQueue acc.2 x h)

theorem indexInv_addMultipleToQueue (s : State) (songs : List Song) (h : IndexInv s) :
    IndexInv (addMultipleToQueue s songs).2 :=
  indexInv_foldl_addToQueue songs (0, s) h

theorem indexInv_removeFromQueue (s : State) (index : Int) (h : IndexInv s) :
    IndexInv (removeFromQueue s index) := by
  rw [indexInv_iff] at h ⊢
  unfold removeFromQueue
  split
  · next hb =>
    have hl := length_splice1_of_inBounds s.queue index hb.1 hb.2
    dsimp only
    split
    · next hc =>
      rw [hl] at hc
      simp only [hl]
      omega
    · next hc =>
      rw [hl] at hc
      simp only [hl]
      omega
  · exact h

theorem indexInv_clearQueue (s : State) : IndexInv (clearQueue s) := by
  rw [indexInv_iff]
  simp [clearQueue]

theorem indexInv_shuffleQueue (s : State) (rnd : Nat → Nat) (h : IndexInv s) :
    IndexInv (shuffleQueue s rnd) := by
  rw [indexInv_iff] at h ⊢
  unfold shuffleQueue
  split
  · simp only [List.length_cons, Nat.cast_add, Nat.cast_one]
    omega
  · exact h

theorem indexInv_playNext (s : State) (h : IndexInv s) : IndexInv (playNext s).2 := by
  rw [indexInv_iff] at h ⊢
  unfold playNext
  split
  · dsimp only
    omega
  · split
    · dsimp only
      omega
    · exact h

theorem indexInv_playPrevious (s : State) (load : Song → Option String) (h : IndexInv s) :
    IndexInv (playPrevious s load) := by
  unfold playPrevious
  split
  · apply indexInv_playSongAtIndex
    rw [indexInv_iff] at h ⊢
    dsimp only
    omega
  · exact h

theorem indexInv_toggleRepeat (s : State) (h : IndexInv s) : IndexInv (toggleRepeat s) := by
  rw [indexInv_iff] at h ⊢
  exact h

theorem indexInv_handleSongEnded (s : State) (load : Song → Option String)
    (h : IndexInv s) : IndexInv (handleSongEnded s load) := by
  unfold handleSongEnded
  split
  · rw [indexInv_iff] at h ⊢
    exact h
  · dsimp only
    split
    · exact indexInv_playSongAtIndex _ _ _ (indexInv_playNext s h)
    · split
      · apply indexInv_playSongAtIndex
        have h2 := indexInv_playNext s h
        rw [indexInv_iff] at h2 ⊢
        dsimp only
        omega
      · exact indexInv_playNext s h

theorem indexInv_of_currentIndex_zero (s : State) (l : List Song) :
    IndexInv { s with queue := l, currentIndex := 0 } := by
  rw [indexInv_iff]
  dsimp only
  omega

theorem indexInv_playSongNow (s : State) (song : Song) (load : Song → Option String) :
    IndexInv (playSongNow s song load) :=
  indexInv_playSongAtIndex _ _ _ (indexInv_of_currentIndex_zero s [song])

theorem indexInv_playAll (s : State) (load : Song → Option String) :
    IndexInv (playAll s load) :=
  indexInv_playSongAtIndex _ _ _ (indexInv_of_currentIndex_zero s s.allSongs)

theorem indexInv_shuffleAll (s : State) (rnd : Nat → Nat) (load : Song → Option String) :
    IndexInv (shuffleAll s rnd load) :=
  indexInv_playSongAtIndex _ _ _ (indexInv_of_currentIndex_zero s (fisherYates rnd s.allSongs))

theorem indexInv_step (s : State) (op : Op) (h : IndexInv s) : IndexInv (step s op) := by
  cases op with
  | addToQueue song => exact indexInv_addToQueue s song h
  | addMultipleToQueue songs => exact indexInv_addMultipleToQueue s songs h
  | removeFromQueue index => exact indexInv_removeFromQueue s index h
  | clearQueue => exact indexInv_clearQueue s
  | shuffleQueue rnd => exact indexInv_shuffleQueue s rnd h
  | playNext => exact indexInv_playNext s h
  | playPrevious load => exact indexInv_playPrevious s load h
  | playSongAtIndex index load => exact indexInv_playSongAtIndex s index load h
  | toggleRepeat => exact indexInv_toggleRepeat s h
  | handleSongEnded load => exact indexInv_handleSongEnded s load h
  | playSongNow song load => exact indexInv_playSongNow s song load
  | playAll load => exact indexInv_playAll s load
  | shuffleAll rnd load => exact indexInv_shuffleAll s rnd load
  | audioPlay => rw [indexInv_iff] at h ⊢; exact h
  | audioPause => rw [indexInv_iff] at h ⊢; exact h
  | songsLoaded songs => rw [indexInv_iff] at h ⊢; exact h

theorem indexInv_run (s : State) (ops : List Op) (h : IndexInv s) : IndexInv (run s ops) := by
  induction ops generalizing s with
  | nil => exact h
  | cons op ops ih => exact ih (step s op) (indexInv_step s op h)

/-! ## Reading and deleting at an index -/

theorem cons_eraseIdx_perm (l : List Song) (i : Nat) (x : Song) (h : l[i]? = some x) :
    List.Perm (x :: l.eraseIdx i) l := by
  induction l generalizing i with
  | nil => simp at h
  | cons z t ih =>
    cases i with
    | zero =>
      simp only [List.getElem?_cons_zero, Option.some.injEq] at h
      subst h
      simp
    | succ i =>
      simp only [List.getElem?_cons_succ] at h
      simp only [List.eraseIdx_cons_succ]
      exact (List.Perm.swap z x _).trans ((ih i h).cons z)

theorem arrayGet_of_getElem? (a : List Song) (i : Int) (x : Song) (h0 : 0 ≤ i)
    (h : a[i.toNat]? = some x) : arrayGet a i = x := by
  unfold arrayGet
  rw [if_pos h0, List.getD_eq_getElem?_getD, h]
  rfl

theorem exists_getElem?_of_inBounds (a : List Song) (i : Int) (h0 : 0 ≤ i)
    (h1 : i < a.length) :
    ∃ x, a[i.toNat]? = some x := by
  have h : i.toNat < a.length := by omega
  exact ⟨a[i.toNat], List.getElem?_eq_getElem h⟩

/-! ## The fold of `addToQueue`, and `playNext` at the last index -/

theorem foldl_addToQueue_spec (old : List Song) (xs pre : List Song) (acc : Nat × State)
    (hmem : ∀ y, y ∈ acc.2.queue ↔ y ∈ old ∨ y ∈ pre) :
    (xs.foldl
      (fun (acc : Nat × State) song =>
        let r := addToQueue acc.2 song
        (if r.1 then acc.1 + 1 else acc.1, r.2)) acc)
      = (acc.1 + (newFrom old pre xs).length,
         { acc.2 with queue := acc.2.queue ++ newFrom old pre xs }) := by
  unfold newFrom
  induction xs generalizing pre acc with
  | nil => simp
  | cons x t ih =>
    simp only [List.foldl_cons, List.enumFrom_cons]
    have hlen : (pre ++ [x]).length = pre.length + 1 := by simp
    have happ : (pre ++ [x]) ++ t = pre ++ x :: t := by simp
    have htake : (pre ++ x :: t).take pre.length = pre := by simp
    by_cases hx : x ∈ acc.2.queue
    · have hstep : addToQueue acc.2 x = (false, acc.2) := by
        unfold addToQueue
        rw [if_neg (not_not.mpr hx)]
      have hmem2 : ∀ y, y ∈ acc.2.queue ↔ y ∈ old ∨ y ∈ pre ++ [x] := by
        intro y
        rw [hmem y]
        simp only [List.mem_append, List.mem_singleton]
        constructor
        · rintro (h | h)
          · exact Or.inl h
          · exact Or.inr (Or.inl h)
        · rintro (h | h | h)
          · exact Or.inl h
          · exact Or.inr h
          · subst h
            exact (hmem y).mp hx
      have hx2 : x ∈ old ∨ x ∈ pre := (hmem x).mp hx
      have h3 := ih (pre ++ [x]) (acc.1, acc.2) hmem2
      rw [hlen, happ] at h3
      rw [hstep]
      simp only [Bool.false_eq_true, if_false]
      rw [h3, List.filter_cons]
      have hc : (decide (x ∉ old) && decide (x ∉ List.take pre.length (pre ++ x :: t))) = false := by
        rw [htake]
        rcases hx2 with h | h <;> simp [h]
      simp only [hc, Bool.false_eq_true, if_false]
    · have hstep : addToQueue acc.2 x = (true, { acc.2 with queue := acc.2.queue ++ [x] }) := by
        unfold addToQueue
        rw [if_pos hx]
      have hmem2 : ∀ y, y ∈ acc.2.queue ++ [x] ↔ y ∈ old ∨ y ∈ pre ++ [x] := by
        intro y
        simp only [List.mem_append, List.mem_singleton]
        rw [hmem y]
        exact or_assoc
      have hx2 : x ∉ old ∧ x ∉ pre := by
        have := (hmem x).not.mp hx
        exact not_or.mp this
      have h3 := ih (pre ++ [x]) (acc.1 + 1, { acc.2 with queue := acc.2.queue ++ [x] }) hmem2
      rw [hlen, happ] at h3
      rw [hstep]
      simp only [if_true]
      rw [h3, List.filter_cons]
      have hc : (decide (x ∉ old) && decide (x ∉ List.take pre.length (pre ++ x :: t))) = true := by
        rw [htake]
        simp [hx2.1, hx2.2]
      simp only [hc, if_true, List.map_cons, List.length_cons, List.append_assoc, List.singleton_append]
      congr 1
      omega

theorem playNext_of_last (s : State) (hlast : s.currentIndex = (s.queue.length : Int) - 1) :
    playNext s =
      if s.repeatMode = RepeatMode.all then (true, { s with currentIndex := 0 })
      else (false, s) := by
  unfold playNext
  rw [if_neg (by omega)]

theorem React.addToQueue_same_id (queue : List React.SongData) (t u : React.SongData)
    (hid : u.id = t.id) :
    React.addToQueue (React.addToQueue queue t) u = React.addToQueue queue t := by
  unfold React.addToQueue
  rw [hid]
  cases h : queue.find? (fun s => s.id == t.id) with
  | none => simp [List.find?_append, h]
  | some x => simp [h]

/-! ## The claims -/

/-- C1. Index invariant of the engine: from any state with an empty queue and
`currentIndex = 0` (in particular the initial state), after any sequence of the
operations `addToQueue`, `addMultipleToQueue`, `removeFromQueue`, `clearQueue`,
`shuffleQueue`, `playNext`, `playPrevious`, `playSongAtIndex`, `toggleRepeat`,
`handleSongEnded`, `playSongNow`, `playAll`, `shuffleAll` (and the audio and
library events), with any arguments, random choices and payload outcomes,
`0 ≤ currentIndex < queue.length` holds when the queue is non-empty and
`currentIndex = 0` when it is empty. -/
theorem C1_index_invariant (s0 : State) (hq : s0.queue = []) (hi : s0.currentIndex = 0)
    (ops : List Op) :
    ((run s0 ops).queue ≠ [] →
        0 ≤ (run s0 ops).currentIndex ∧
          (run s0 ops).currentIndex < ((run s0 ops).queue.length : Int)) ∧
      ((run s0 ops).queue = [] → (run s0 ops).currentIndex = 0) := by
  have h0 : IndexInv s0 := by
    rw [indexInv_iff]
    rw [hq, hi]
    simp
  exact indexInv_run s0 ops h0

/-- Witness for C1: the invariant after the run `demoOps` from the initial
state. -/
theorem C1_index_invariant_witness :
    initialState.queue = [] ∧ initialState.currentIndex = 0 ∧
      IndexInv (run initialState demoOps) :=
  ⟨rfl, rfl, C1_index_invariant initialState rfl rfl demoOps⟩

/-- C2. For every queue `Q` and every index `i` with `0 ≤ i < |Q|`,
`removeFromQueue(i)` leaves a queue of exactly `|Q| - 1` elements, equal to `Q`
with the element at position `i` deleted (the elements before `i` followed by
the elements after `i`), so the remaining elements keep their relative order. -/
theorem C2_removeFromQueue_deletes_at_index (s : State) (i : Int) (h0 : 0 ≤ i)
    (h1 : i < s.queue.length) :
    (removeFromQueue s i).queue.length = s.queue.length - 1 ∧
      (removeFromQueue s i).queue = s.queue.eraseIdx i.toNat ∧
      (removeFromQueue s i).queue = s.queue.take i.toNat ++ s.queue.drop (i.toNat + 1) ∧
      List.Sublist (removeFromQueue s i).queue s.queue := by
  have hq : (removeFromQueue s i).queue = s.queue.eraseIdx i.toNat := by
    unfold removeFromQueue
    rw [if_pos ⟨h0, h1⟩]
    dsimp only
    split <;> exact splice1_of_inBounds s.queue i h0 h1
  have hl : i.toNat < s.queue.length := by omega
  refine ⟨?_, hq, ?_, ?_⟩
  · rw [hq, List.length_eraseIdx, if_pos hl]
  · rw [hq, List.eraseIdx_eq_take_drop_succ]
  · rw [hq]
    exact List.eraseIdx_sublist _ _

/-- Witness for C2: removing index 1 from `[a, b, c]`. -/
theorem C2_removeFromQueue_deletes_at_index_witness :
    (removeFromQueue
        { initialState with
          queue := [Song.file "a.pkl", Song.file "b.pkl", Song.file "c.pkl"] } 1).queue
      = [Song.file "a.pkl", Song.file "c.pkl"] :=
  (C2_removeFromQueue_deletes_at_index
    { initialState with queue := [Song.file "a.pkl", Song.file "b.pkl", Song.file "c.pkl"] }
    1 (by decide) (by decide)).2.1

/-- C3. For every state and track `t`, `addToQueue(t)` returns `true` and yields
`queue ++ [t]` when `t` is not in the queue, returns `false` and leaves the
queue (indeed the whole state) unchanged when it is; in both cases
`currentIndex` is unchanged. -/
theorem C3_addToQueue_appends_unless_present (s : State) (t : Song) :
    (t ∉ s.queue →
        (addToQueue s t).1 = true ∧ (addToQueue s t).2.queue = s.queue ++ [t] ∧
          (addToQueue s t).2 = { s with queue := s.queue ++ [t] }) ∧
      (t ∈ s.queue → (addToQueue s t).1 = false ∧ (addToQueue s t).2 = s) ∧
      (addToQueue s t).2.currentIndex = s.currentIndex := by
  unfold addToQueue
  refine ⟨fun h => ?_, fun h => ?_, ?_⟩
  · rw [if_pos h]
    exact ⟨rfl, rfl, rfl⟩
  · rw [if_neg (not_not.mpr h)]
    exact ⟨rfl, rfl⟩
  · split <;> rfl

/-- Witness for C3: adding `b` to `[a]`, and adding `a` to `[a]`. -/
theorem C3_addToQueue_appends_unless_present_witness :
    ((addToQueue { initialState with queue := [Song.file "a.pkl"] } (Song.file "b.pkl")).1
        = true ∧
      (addToQueue { initialState with queue := [Song.file "a.pkl"] }
          (Song.file "b.pkl")).2.queue = [Song.file "a.pkl"] ++ [Song.file "b.pkl"]) ∧
    ((addToQueue { initialState with queue := [Song.file "a.pkl"] } (Song.file "a.pkl")).1
        = false ∧
      (addToQueue { initialState with queue := [Song.file "a.pkl"] } (Song.file "a.pkl")).2
        = { initialState with queue := [Song.file "a.pkl"] }) :=
  ⟨⟨((C3_addToQueue_appends_unless_present
      { initialState with queue := [Song.file "a.pkl"] } (Song.file "b.pkl")).1 (by decide)).1,
    ((C3_addToQueue_appends_unless_present
      { initialState with queue := [Song.file "a.pkl"] } (Song.file "b.pkl")).1
        (by decide)).2.1⟩,
   (C3_addToQueue_appends_unless_present
      { initialState with queue := [Song.file "a.pkl"] } (Song.file "a.pkl")).2.1 (by decide)⟩

/-- C4. `addToQueue` is idempotent with respect to the track identifier: for
every state and track `t`, calling `addToQueue(t)` twice in a row gives the same
state, hence the same queue and the same queue length, as calling it once, and
the second call returns `false`.  The same holds for `addToQueue` of the React
component, which compares the `id` fields. -/
theorem C4_addToQueue_idempotent (s : State) (t : Song) (queue : List React.SongData)
    (song : React.SongData) :
    (addToQueue (addToQueue s t).2 t).2 = (addToQueue s t).2 ∧
      (addToQueue (addToQueue s t).2 t).2.queue = (addToQueue s t).2.queue ∧
      (addToQueue (addToQueue s t).2 t).2.queue.length = (addToQueue s t).2.queue.length ∧
      (addToQueue (addToQueue s t).2 t).1 = false ∧
      React.addToQueue (React.addToQueue queue song) song = React.addToQueue queue song := by
  have hmem : t ∈ (addToQueue s t).2.queue := by
    unfold addToQueue
    split
    · simp
    · next h => exact not_not.mp h
  have h2 : addToQueue (addToQueue s t).2 t = (false, (addToQueue s t).2) := by
    generalize (addToQueue s t).2 = s1 at hmem
    unfold addToQueue
    rw [if_neg (not_not.mpr hmem)]
  rw [h2]
  exact ⟨rfl, rfl, rfl, rfl, React.addToQueue_same_id queue song song rfl⟩

/-- Evaluation of `addMultipleToQueue` on the queue `[A, B, C]` and the input
`[B, D, A, D, E]`: two tracks are added, `D` once. -/
theorem addMultipleToQueue_demo :
    (addMultipleToQueue atLastOff
        [songB, Song.file "D.pkl", songA, Song.file "D.pkl", Song.file "E.pkl"]).1 = 2 ∧
      (addMultipleToQueue atLastOff
        [songB, Song.file "D.pkl", songA, Song.file "D.pkl", Song.file "E.pkl"]).2.queue
        = [songA, songB, songC, Song.file "D.pkl", Song.file "E.pkl"] ∧
      firstNewOccurrences [songA, songB, songC]
        [songB, Song.file "D.pkl", songA, Song.file "D.pkl", Song.file "E.pkl"]
        = [Song.file "D.pkl", Song.file "E.pkl"] := by
  decide

/-- C5. For every state and every input list of tracks (repeats and tracks
already queued allowed), `addMultipleToQueue` yields the old queue followed by
the first occurrences, in input order, of the input tracks that were not already
queued, and returns exactly the number of tracks added: the new queue length
minus the old queue length (the queue never shrinks). -/
theorem C5_addMultipleToQueue_returns_added_count (s : State) (songs : List Song) :
    (addMultipleToQueue s songs).2.queue = s.queue ++ firstNewOccurrences s.queue songs ∧
      (addMultipleToQueue s songs).1 =
        (addMultipleToQueue s songs).2.queue.length - s.queue.length ∧
      s.queue.length ≤ (addMultipleToQueue s songs).2.queue.length ∧
      (addMultipleToQueue s songs).1 = (firstNewOccurrences s.queue songs).length := by
  have h := foldl_addToQueue_spec s.queue songs [] (0, s) (by simp)
  have hn : newFrom s.queue [] songs = firstNewOccurrences s.queue songs := rfl
  rw [hn] at h
  unfold addMultipleToQueue
  rw [h]
  simp

/-- C6. For every state with a non-empty queue and in-bounds `currentIndex`, and
for every outcome `rnd` of the random choices, `shuffleQueue` yields a queue that
is a permutation of the old queue, whose element at index 0 is the track that
was at the old `currentIndex`, and `currentIndex` is 0 afterwards. -/
theorem C6_shuffleQueue_permutes_keeping_current (s : State) (rnd : Nat → Nat)
    (hne : s.queue ≠ []) (h0 : 0 ≤ s.currentIndex)
    (h1 : s.currentIndex < s.queue.length) :
    List.Perm (shuffleQueue s rnd).queue s.queue ∧
      (∃ x, s.queue[s.currentIndex.toNat]? = some x ∧
        (shuffleQueue s rnd).queue[0]? = some x) ∧
      (shuffleQueue s rnd).currentIndex = 0 := by
  obtain ⟨x, hx⟩ := exists_getElem?_of_inBounds s.queue s.currentIndex h0 h1
  unfold shuffleQueue
  split
  · dsimp only
    rw [arrayGet_of_getElem? s.queue s.currentIndex x h0 hx,
      splice1_of_inBounds s.queue s.currentIndex h0 h1]
    refine ⟨?_, ⟨x, hx, by simp⟩, rfl⟩
    exact ((fisherYates_perm rnd _).cons x).trans (cons_eraseIdx_perm s.queue _ x hx)
  · next hlen =>
    have hlen1 : s.queue.length = 1 := by
      have : s.queue.length ≠ 0 := fun h => hne (List.length_eq_zero.mp h)
      omega
    have hc : s.currentIndex = 0 := by omega
    refine ⟨List.Perm.refl _, ⟨x, hx, ?_⟩, hc⟩
    rw [hc] at hx
    exact hx

/-- Witness for C6: shuffling `[A, B, C]` with `C` current. -/
theorem C6_shuffleQueue_permutes_keeping_current_witness :
    atLastOff.queue ≠ [] ∧
      List.Perm (shuffleQueue atLastOff (fun i => i + 1)).queue atLastOff.queue ∧
      (∃ x, atLastOff.queue[atLastOff.currentIndex.toNat]? = some x ∧
        (shuffleQueue atLastOff (fun i => i + 1)).queue[0]? = some x) ∧
      (shuffleQueue atLastOff (fun i => i + 1)).currentIndex = 0 :=
  ⟨by decide,
   C6_shuffleQueue_permutes_keeping_current atLastOff (fun i => i + 1)
     (by decide) (by decide) (by decide)⟩

/-- C7. `playNext` implements the advance policy: for every state, if
`currentIndex < queue.length - 1` it increments `currentIndex` and returns
`true`; otherwise, if `repeatMode` is `all`, it sets `currentIndex` to 0 and
returns `true`; otherwise it returns `false` and changes nothing.  In no case
does it change the queue, `repeatMode` or `isPlaying`. -/
theorem C7_playNext_advance_policy (s : State) :
    (s.currentIndex < (s.queue.length : Int) - 1 →
        playNext s = (true, { s with currentIndex := s.currentIndex + 1 })) ∧
      (¬ s.currentIndex < (s.queue.length : Int) - 1 → s.repeatMode = RepeatMode.all →
        playNext s = (true, { s with currentIndex := 0 })) ∧
      (¬ s.currentIndex < (s.queue.length : Int) - 1 → s.repeatMode ≠ RepeatMode.all →
        playNext s = (false, s)) ∧
      (playNext s).2.queue = s.queue ∧
      (playNext s).2.repeatMode = s.repeatMode ∧
      (playNext s).2.isPlaying = s.isPlaying := by
  unfold playNext
  refine ⟨fun h => ?_, fun h hr => ?_, fun h hr => ?_, ?_, ?_, ?_⟩
  · rw [if_pos h]
  · rw [if_neg h, if_pos hr]
  · rw [if_neg h, if_neg hr]
  · split
    · rfl
    · split <;> rfl
  · split
    · rfl
    · split <;> rfl
  · split
    · rfl
    · split <;> rfl

/-- Witness for C7: the three branches, on `[A, B, C]` with `B` current, with `C`
current under repeat `all`, and with `C` current under repeat `off`. -/
theorem C7_playNext_advance_policy_witness :
    playNext atMiddleOne = (true, { atMiddleOne with currentIndex := 1 + 1 }) ∧
      playNext atLastAll = (true, { atLastAll with currentIndex := 0 }) ∧
      playNext atLastOff = (false, atLastOff) :=
  ⟨(C7_playNext_advance_policy atMiddleOne).1 (by decide),
   (C7_playNext_advance_policy atLastAll).2.1 (by decide) (by decide),
   (C7_playNext_advance_policy atLastOff).2.2.1 (by decide) (by decide)⟩

/-- At the last index with repeat mode `off`, `handleSongEnded` returns its state
as it received it: it writes no field and issues no command. -/
theorem handleSongEnded_of_last_off (s : State) (load : Song → Option String)
    (hlast : s.currentIndex = (s.queue.length : Int) - 1)
    (hoff : s.repeatMode = RepeatMode.off) : handleSongEnded s load = s := by
  unfold handleSongEnded
  rw [playNext_of_last s hlast]
  simp [hoff]

/-- C8. For every state with `currentIndex` at the last index and repeat mode
`off`, the end of playback leaves `currentIndex` unchanged, issues no load, seek
or play command and results in `isPlaying = false`.  The audio element, when
playback reaches the end, fires `pause` and then `ended`: the `pause` listener
of `setupAudioPlayer` (lines 63-66) runs first and `handleSongEnded`, called by
the `ended` listener (lines 54-56), runs on the state it leaves. -/
theorem C8_handleSongEnded_last_off_stops (s : State) (load : Song → Option String)
    (hlast : s.currentIndex = (s.queue.length : Int) - 1)
    (hoff : s.repeatMode = RepeatMode.off) :
    (handleSongEnded (onAudioPause s) load).currentIndex = s.currentIndex ∧
      (handleSongEnded (onAudioPause s) load).log = s.log ∧
      (handleSongEnded (onAudioPause s) load).queue = s.queue ∧
      (handleSongEnded (onAudioPause s) load).isPlaying = false ∧
      handleSongEnded (onAudioPause s) load = onAudioPause s ∧
      run s [Op.audioPause, Op.handleSongEnded load] = onAudioPause s := by
  have h : handleSongEnded (onAudioPause s) load = onAudioPause s :=
    handleSongEnded_of_last_off (onAudioPause s) load hlast hoff
  have hr : run s [Op.audioPause, Op.handleSongEnded load] =
      handleSongEnded (onAudioPause s) load := rfl
  rw [hr, h]
  exact ⟨rfl, rfl, rfl, rfl, rfl, rfl⟩

/-- Witness for C8: queue `[A, B, C]`, `currentIndex = 2`, repeat `off`, the last
track playing until its end. -/
theorem C8_handleSongEnded_last_off_stops_witness :
    atLastOffPlaying.isPlaying = true ∧
      (handleSongEnded (onAudioPause atLastOffPlaying) loadOk).currentIndex = 2 ∧
      (handleSongEnded (onAudioPause atLastOffPlaying) loadOk).log = [] ∧
      (handleSongEnded (onAudioPause atLastOffPlaying) loadOk).isPlaying = false :=
  ⟨rfl,
   (C8_handleSongEnded_last_off_stops atLastOffPlaying loadOk (by decide) (by decide)).1,
   (C8_handleSongEnded_last_off_stops atLastOffPlaying loadOk (by decide) (by decide)).2.1,
   (C8_handleSongEnded_last_off_stops atLastOffPlaying loadOk (by decide)
      (by decide)).2.2.2.1⟩

/-- C9. For every state with a non-empty queue, `currentIndex` at the last index
and repeat mode `all`, `handleSongEnded` behaves as `playSongAtIndex(0)` on the
state with `currentIndex` reset to 0: afterwards `currentIndex = 0`, the queue
is unchanged, the payload of the track at index 0 has been requested and, when
the payload arrives, it is set as source and `play` is issued. -/
theorem C9_handleSongEnded_last_all_wraps (s : State) (load : Song → Option String)
    (hne : s.queue ≠ []) (hlast : s.currentIndex = (s.queue.length : Int) - 1)
    (hall : s.repeatMode = RepeatMode.all) :
    handleSongEnded s load = playSongAtIndex { s with currentIndex := 0 } 0 load ∧
      (handleSongEnded s load).currentIndex = 0 ∧
      (handleSongEnded s load).queue = s.queue ∧
      (∃ x, s.queue[0]? = some x ∧
        (handleSongEnded s load).log =
          s.log ++ Effect.fetch x ::
            (match load x with
              | some audioData =>
                if audioData ≠ "" then
                  [Effect.setSrc ("data:audio/mp3;base64," ++ audioData), Effect.play]
                else []
              | none => [])) := by
  have h : handleSongEnded s load = playSongAtIndex { s with currentIndex := 0 } 0 load := by
    unfold handleSongEnded
    rw [playNext_of_last s hlast]
    simp [hall]
  have hpos : 0 < s.queue.length := List.length_pos.mpr hne
  have hb : (0 : Int) ≤ 0 ∧ (0 : Int) < s.queue.length := ⟨le_refl _, by omega⟩
  rw [h]
  refine ⟨rfl, ?_, ?_, ?_⟩
  · rw [playSongAtIndex_currentIndex]
    simp [hpos]
  · rw [playSongAtIndex_queue]
  · refine ⟨s.queue[0], List.getElem?_eq_getElem hpos, ?_⟩
    have hg : arrayGet s.queue 0 = s.queue[0] :=
      arrayGet_of_getElem? s.queue 0 _ (le_refl _) (List.getElem?_eq_getElem hpos)
    unfold playSongAtIndex
    rw [if_pos hb]
    dsimp only
    rw [hg]
    split
    · split <;> simp
    · simp

/-- Witness for C9: queue `[A, B, C]`, `currentIndex` 2 becomes 0 and `A` is
loaded and played. -/
theorem C9_handleSongEnded_last_all_wraps_witness :
    (handleSongEnded atLastAll loadOk).currentIndex = 0 ∧
      (handleSongEnded atLastAll loadOk).queue = [songA, songB, songC] ∧
      (handleSongEnded atLastAll loadOk).log =
        [Effect.fetch songA, Effect.setSrc "data:audio/mp3;base64,QUJD", Effect.play] :=
  ⟨(C9_handleSongEnded_last_all_wraps atLastAll loadOk (by decide) (by decide)
      (by decide)).2.1,
   (C9_handleSongEnded_last_all_wraps atLastAll loadOk (by decide) (by decide)
      (by decide)).2.2.1,
   by decide⟩

/-- C10. For every state with repeat mode `one`, at any `currentIndex`,
`handleSongEnded` leaves `currentIndex`, the queue and every other field
unchanged (none of the effects of `playNext` takes place) and issues exactly a
seek to time 0 followed by `play` on the audio player. -/
theorem C10_handleSongEnded_repeat_one_restarts (s : State) (load : Song → Option String)
    (hone : s.repeatMode = RepeatMode.one) :
    handleSongEnded s load = { s with log := s.log ++ [Effect.seek 0, Effect.play] } ∧
      (handleSongEnded s load).currentIndex = s.currentIndex ∧
      (handleSongEnded s load).queue = s.queue ∧
      (handleSongEnded s load).log = s.log ++ [Effect.seek 0, Effect.play] := by
  have h : handleSongEnded s load = { s with log := s.log ++ [Effect.seek 0, Effect.play] } := by
    unfold handleSongEnded
    rw [if_pos hone]
  rw [h]
  exact ⟨rfl, rfl, rfl, rfl⟩

/-- Witness for C10: queue `[A, B, C]` with `B` current and repeat mode `one`. -/
theorem C10_handleSongEnded_repeat_one_restarts_witness :
    (handleSongEnded atMiddleOne loadOk).currentIndex = 1 ∧
      (handleSongEnded atMiddleOne loadOk).log = [] ++ [Effect.seek 0, Effect.play] :=
  ⟨(C10_handleSongEnded_repeat_one_restarts atMiddleOne loadOk (by decide)).2.1,
   (C10_handleSongEnded_repeat_one_restarts atMiddleOne loadOk (by decide)).2.2.2⟩

/-! ## Repeat mode, retreat, removal of the last track, bulk play, failures, filtering -/

theorem playSongAtIndex_of_inBounds (s : State) (i : Int) (load : Song → Option String)
    (x : Song) (h0 : 0 ≤ i) (h1 : i < s.queue.length) (hx : s.queue[i.toNat]? = some x) :
    playSongAtIndex s i load =
      { s with
        currentIndex := i
        log := s.log ++ Effect.fetch x ::
          (match load x with
            | some audioData =>
              if audioData ≠ "" then
                [Effect.setSrc ("data:audio/mp3;base64," ++ audioData), Effect.play]
              else []
            | none => []) } := by
  unfold playSongAtIndex
  rw [if_pos ⟨h0, h1⟩]
  dsimp only
  rw [arrayGet_of_getElem? s.queue i x h0 hx]
  split
  · split <;> simp
  · simp

theorem toggleRepeat_repeatMode (s : State) :
    (toggleRepeat s).repeatMode =
      match s.repeatMode with
      | RepeatMode.off => RepeatMode.all
      | RepeatMode.all => RepeatMode.one
      | RepeatMode.one => RepeatMode.off := by
  unfold toggleRepeat
  cases s.repeatMode <;> rfl

theorem React.toggleRepeat_nextMode (r : React.State) :
    (React.toggleRepeat r).repeatMode =
      match r.repeatMode with
      | RepeatMode.off => RepeatMode.all
      | RepeatMode.all => RepeatMode.one
      | RepeatMode.one => RepeatMode.off := by
  unfold React.toggleRepeat
  cases r.repeatMode <;> rfl

/-- C11. `toggleRepeat` maps `off` to `all`, `all` to `one` and `one` to `off`,
so three successive calls return the original state (in particular the original
repeat mode); it never changes the queue or `currentIndex`.  The `toggleRepeat`
of the React component has the same mapping, the same round trip after three
calls, and leaves every other state cell (queue and `currentIndex` included)
as it was. -/
theorem C11_toggleRepeat_cycles (s : State) (r : React.State) :
    (s.repeatMode = RepeatMode.off → (toggleRepeat s).repeatMode = RepeatMode.all) ∧
      (s.repeatMode = RepeatMode.all → (toggleRepeat s).repeatMode = RepeatMode.one) ∧
      (s.repeatMode = RepeatMode.one → (toggleRepeat s).repeatMode = RepeatMode.off) ∧
      toggleRepeat (toggleRepeat (toggleRepeat s)) = s ∧
      (toggleRepeat s).queue = s.queue ∧
      (toggleRepeat s).currentIndex = s.currentIndex ∧
      React.toggleRepeat (React.toggleRepeat (React.toggleRepeat r)) = r ∧
      (r.repeatMode = RepeatMode.off →
        (React.toggleRepeat r).repeatMode = RepeatMode.all) ∧
      (r.repeatMode = RepeatMode.all →
        (React.toggleRepeat r).repeatMode = RepeatMode.one) ∧
      (r.repeatMode = RepeatMode.one →
        (React.toggleRepeat r).repeatMode = RepeatMode.off) ∧
      (React.toggleRepeat r).queue = r.queue ∧
      (React.toggleRepeat r).currentIndex = r.currentIndex ∧
      React.toggleRepeat r = { r with repeatMode := (React.toggleRepeat r).repeatMode } := by
  refine ⟨fun h => ?_, fun h => ?_, fun h => ?_, ?_, rfl, rfl, ?_, fun h => ?_, fun h => ?_,
    fun h => ?_, rfl, rfl, rfl⟩
  · rw [toggleRepeat_repeatMode, h]
  · rw [toggleRepeat_repeatMode, h]
  · rw [toggleRepeat_repeatMode, h]
  · cases s with
    | mk allSongs queue currentIndex repeatMode isPlaying log =>
      cases repeatMode <;> simp [toggleRepeat, modes, List.indexOf_cons]
  · cases r with
    | mk songs queue currentIndex isPlaying repeatMode searchQuery selectedSongs =>
      cases repeatMode <;> simp [React.toggleRepeat, modes, List.indexOf_cons]
  · rw [React.toggleRepeat_nextMode, h]
  · rw [React.toggleRepeat_nextMode, h]
  · rw [React.toggleRepeat_nextMode, h]

/-- Witness for C11: the three steps of the cycle in `app.js`, and the step from
`off` in the React component. -/
theorem C11_toggleRepeat_cycles_witness :
    (toggleRepeat atLastOff).repeatMode = RepeatMode.all ∧
      (toggleRepeat atLastAll).repeatMode = RepeatMode.one ∧
      (toggleRepeat atMiddleOne).repeatMode = RepeatMode.off ∧
      (React.toggleRepeat reactAtLast).repeatMode = RepeatMode.all ∧
      (React.toggleRepeat { reactAtLast with repeatMode := RepeatMode.all }).repeatMode
        = RepeatMode.one ∧
      (React.toggleRepeat { reactAtLast with repeatMode := RepeatMode.one }).repeatMode
        = RepeatMode.off :=
  ⟨(C11_toggleRepeat_cycles atLastOff reactAtLast).1 rfl,
   (C11_toggleRepeat_cycles atLastAll reactAtLast).2.1 rfl,
   (C11_toggleRepeat_cycles atMiddleOne reactAtLast).2.2.1 rfl,
   (C11_toggleRepeat_cycles atLastOff reactAtLast).2.2.2.2.2.2.2.1 rfl,
   (C11_toggleRepeat_cycles atLastOff
      { reactAtLast with repeatMode := RepeatMode.all }).2.2.2.2.2.2.2.2.1 rfl,
   (C11_toggleRepeat_cycles atLastOff
      { reactAtLast with repeatMode := RepeatMode.one }).2.2.2.2.2.2.2.2.2.1 rfl⟩

/-- C12. `playPrevious` never wraps: for every state with `currentIndex = 0`, in
every repeat mode, it returns the state unchanged (`currentIndex` stays 0, no
load or play is issued); for every state with `currentIndex > 0` it decrements
`currentIndex` by exactly one and runs `playSongAtIndex` at the new index, which,
the new index being in the queue, requests the payload of the track there and
sets it as source and plays it when the payload arrives. -/
theorem C12_playPrevious_never_wraps (s : State) (load : Song → Option String) :
    (s.currentIndex = 0 →
        playPrevious s load = s ∧ (playPrevious s load).currentIndex = 0 ∧
          (playPrevious s load).log = s.log) ∧
      (0 < s.currentIndex →
        (playPrevious s load).currentIndex = s.currentIndex - 1 ∧
          (playPrevious s load).queue = s.queue ∧
          playPrevious s load =
            playSongAtIndex { s with currentIndex := s.currentIndex - 1 }
              (s.currentIndex - 1) load ∧
          (s.currentIndex - 1 < s.queue.length →
            ∃ x, s.queue[(s.currentIndex - 1).toNat]? = some x ∧
              (playPrevious s load).log =
                s.log ++ Effect.fetch x ::
                  (match load x with
                    | some audioData =>
                      if audioData ≠ "" then
                        [Effect.setSrc ("data:audio/mp3;base64," ++ audioData), Effect.play]
                      else []
                    | none => []))) := by
  constructor
  · intro h
    have hp : playPrevious s load = s := by
      unfold playPrevious
      rw [if_neg (by omega)]
    rw [hp]
    exact ⟨rfl, h, rfl⟩
  · intro h
    have hp : playPrevious s load =
        playSongAtIndex { s with currentIndex := s.currentIndex - 1 }
          (s.currentIndex - 1) load := by
      unfold playPrevious
      rw [if_pos h]
    refine ⟨?_, ?_, hp, ?_⟩
    · rw [hp, playSongAtIndex_currentIndex]
      split <;> rfl
    · rw [hp, playSongAtIndex_queue]
    · intro hlt
      obtain ⟨x, hx⟩ := exists_getElem?_of_inBounds s.queue (s.currentIndex - 1)
        (by omega) hlt
      refine ⟨x, hx, ?_⟩
      rw [hp, playSongAtIndex_of_inBounds { s with currentIndex := s.currentIndex - 1 }
        (s.currentIndex - 1) load x (by omega) hlt hx]

/-- Witness for C12: at index 0 under repeat `all` nothing happens; at index 2
the index becomes 1. -/
theorem C12_playPrevious_never_wraps_witness :
    playPrevious atFirstAll loadOk = atFirstAll ∧
      (playPrevious atLastOff loadOk).currentIndex = 2 - 1 :=
  ⟨((C12_playPrevious_never_wraps atFirstAll loadOk).1 rfl).1,
   ((C12_playPrevious_never_wraps atLastOff loadOk).2 (by decide)).1⟩

/-- C13 as stated fails: with queue `[A]`, `currentIndex = 0` and
`isPlaying = true`, `removeFromQueue(0)` empties the queue but `isPlaying` is
still `true`. -/
theorem C13_removeFromQueue_single_playing_counterexample :
    singlePlaying.queue = [songA] ∧ singlePlaying.currentIndex = 0 ∧
      (removeFromQueue singlePlaying 0).queue = [] ∧
      ¬ (removeFromQueue singlePlaying 0).isPlaying = false := by
  decide

/-- C13, amended. For every state whose queue is a single track `[A]` with
`currentIndex = 0`, `removeFromQueue(0)` yields the empty queue with
`currentIndex = 0`; it issues no command to the audio player and leaves
`isPlaying` as it was. -/
theorem C13_removeFromQueue_single (s : State) (a : Song) (hq : s.queue = [a])
    (hc : s.currentIndex = 0) :
    removeFromQueue s 0 = { s with queue := [] } ∧
      (removeFromQueue s 0).queue = [] ∧
      (removeFromQueue s 0).currentIndex = 0 ∧
      (removeFromQueue s 0).isPlaying = s.isPlaying ∧
      (removeFromQueue s 0).log = s.log := by
  have h : removeFromQueue s 0 = { s with queue := [] } := by
    unfold removeFromQueue
    rw [hq, hc]
    simp [splice1]
  rw [h]
  exact ⟨rfl, rfl, hc, rfl, rfl⟩

/-- Witness for C13 (amended): the queue `[A]` while playing. -/
theorem C13_removeFromQueue_single_witness :
    (removeFromQueue singlePlaying 0).queue = [] ∧
      (removeFromQueue singlePlaying 0).currentIndex = 0 :=
  ⟨(C13_removeFromQueue_single singlePlaying songA rfl rfl).2.1,
   (C13_removeFromQueue_single singlePlaying songA rfl rfl).2.2.1⟩

/-- C14. For every library (duplicates allowed) `playAll` sets the queue to
exactly the library sequence, and `shuffleAll`, for every outcome `rnd` of the
random choices, sets the queue to a permutation of the library: every track
occurs in the queue as many times as in the library.  Both set `currentIndex`
to 0. -/
theorem C14_playAll_shuffleAll_keep_library (s : State) (rnd : Nat → Nat)
    (load : Song → Option String) :
    (playAll s load).queue = s.allSongs ∧
      (playAll s load).currentIndex = 0 ∧
      List.Perm (shuffleAll s rnd load).queue s.allSongs ∧
      (∀ x, (shuffleAll s rnd load).queue.count x = s.allSongs.count x) ∧
      (shuffleAll s rnd load).currentIndex = 0 := by
  have hq : (shuffleAll s rnd load).queue = fisherYates rnd s.allSongs := by
    unfold shuffleAll
    rw [playSongAtIndex_queue]
  refine ⟨?_, ?_, ?_, ?_, ?_⟩
  · unfold playAll
    rw [playSongAtIndex_queue]
  · unfold playAll
    rw [playSongAtIndex_currentIndex]
    split <;> rfl
  · rw [hq]
    exact fisherYates_perm rnd s.allSongs
  · intro x
    rw [hq]
    exact (fisherYates_perm rnd s.allSongs).count_eq x
  · unfold shuffleAll
    rw [playSongAtIndex_currentIndex]
    split <;> rfl

/-- C15, evaluated on the code: in the React component with queue `[A, B, C]` and
`currentIndex = 2`, the Clear Queue handler empties the queue and leaves
`currentIndex` at 2, not 0; a track added afterwards gives a one-element queue
with `currentIndex` still 2. -/
theorem C15_clearQueue_keeps_currentIndex :
    (React.clearQueueOnClick reactAtLast).queue = [] ∧
      reactAtLast.currentIndex = 2 ∧
      (React.clearQueueOnClick reactAtLast).currentIndex = 2 ∧
      ¬ (React.clearQueueOnClick reactAtLast).currentIndex = 0 ∧
      (React.addToQueue (React.clearQueueOnClick reactAtLast).queue
        ⟨"song:4", "D", "", 0, ""⟩).length = 1 := by
  decide

/-- C16 as stated fails: with queue `[A, B, C]` and `isPlaying = true`, a
`playSongAtIndex(0)` whose payload fetch yields `null` only requests the payload,
and `isPlaying` is still `true` when it completes. -/
theorem C16_playSongAtIndex_fetch_failure_counterexample :
    (0 : Int) ≤ 0 ∧ (0 : Int) < atLastOffPlaying.queue.length ∧
      (playSongAtIndex atLastOffPlaying 0 (fun _ => none)).log = [Effect.fetch songA] ∧
      ¬ (playSongAtIndex atLastOffPlaying 0 (fun _ => none)).isPlaying = false := by
  decide

/-- C16, amended. When the payload fetch fails (`loadSongData` yields `null`)
during `playSongAtIndex(i)` for an in-bounds `i`, the only command issued is the
payload request: no source is loaded and no play command is issued, the queue
is unchanged, `currentIndex` is `i`, and `isPlaying` keeps the value it had
before the call. -/
theorem C16_playSongAtIndex_fetch_failure (s : State) (i : Int)
    (load : Song → Option String) (h0 : 0 ≤ i) (h1 : i < s.queue.length)
    (hfail : load (arrayGet s.queue i) = none) :
    playSongAtIndex s i load =
        { s with currentIndex := i, log := s.log ++ [Effect.fetch (arrayGet s.queue i)] } ∧
      (playSongAtIndex s i load).log = s.log ++ [Effect.fetch (arrayGet s.queue i)] ∧
      (playSongAtIndex s i load).queue = s.queue ∧
      (playSongAtIndex s i load).isPlaying = s.isPlaying := by
  have h : playSongAtIndex s i load =
      { s with currentIndex := i, log := s.log ++ [Effect.fetch (arrayGet s.queue i)] } := by
    unfold playSongAtIndex
    rw [if_pos ⟨h0, h1⟩]
    dsimp only
    rw [hfail]
  rw [h]
  exact ⟨rfl, rfl, rfl, rfl⟩

/-- Witness for C16 (amended): a failed fetch for index 0 of `[A, B, C]`. -/
theorem C16_playSongAtIndex_fetch_failure_witness :
    (playSongAtIndex atLastOff 0 (fun _ => none)).log =
        atLastOff.log ++ [Effect.fetch (arrayGet atLastOff.queue 0)] ∧
      (playSongAtIndex atLastOff 0 (fun _ => none)).isPlaying = atLastOff.isPlaying :=
  ⟨(C16_playSongAtIndex_fetch_failure atLastOff 0 (fun _ => none) (by decide) (by decide)
      rfl).2.1,
   (C16_playSongAtIndex_fetch_failure atLastOff 0 (fun _ => none) (by decide) (by decide)
      rfl).2.2.2⟩

theorem includes_iff (haystack needle : String) :
    includes haystack needle = true ↔
      ∃ pre post, haystack.data = pre ++ needle.data ++ post := by
  unfold includes
  rw [List.any_eq_true]
  constructor
  · rintro ⟨k, _, hk⟩
    have hk2 : (haystack.data.drop k).take needle.data.length = needle.data := by
      simpa using hk
    refine ⟨haystack.data.take k, (haystack.data.drop k).drop needle.data.length, ?_⟩
    conv_lhs => rw [← List.take_append_drop k haystack.data]
    rw [List.append_assoc]
    congr 1
    conv_lhs => rw [← List.take_append_drop needle.data.length (haystack.data.drop k)]
    rw [hk2]
  · rintro ⟨pre, post, h⟩
    refine ⟨pre.length, ?_, ?_⟩
    · rw [List.mem_range, h]
      simp only [List.length_append]
      omega
    · rw [h]
      simp

theorem includes_empty (haystack : String) : includes haystack "" = true := by
  rw [includes_iff]
  exact ⟨[], haystack.data, rfl⟩

/-- C17 as stated fails: for the library `["a.pkl"]` and the query `"pkl"`,
whose display name `"a"` does not contain the query, `renderLibrary` still
returns the track. -/
theorem C17_filter_by_display_name_counterexample :
    displayName "a.pkl" = "a" ∧
      includes (asciiLower (displayName "a.pkl")) (asciiLower "pkl") = false ∧
      filterByDisplayName asciiLower ["a.pkl"] "pkl" = [] ∧
      filteredSongs asciiLower ["a.pkl"] "pkl" = ["a.pkl"] ∧
      filteredSongs asciiLower ["a.pkl"] "pkl" ≠ filterByDisplayName asciiLower ["a.pkl"] "pkl" := by
  decide

/-- C17, amended. Library filtering in `renderLibrary` returns, in library
order, exactly those tracks whose identifier (the file name, `.pkl` included)
contains the query as a substring after both are lower-cased.  The result is a
subsequence of the library, and the empty query returns the whole library. -/
theorem C17_filteredSongs_by_file_name (toLowerCase : String → String)
    (allSongs : List String) (searchInput : String) :
    filteredSongs toLowerCase allSongs searchInput =
        allSongs.filter
          (fun song => includes (toLowerCase song) (toLowerCase searchInput)) ∧
      (∀ song, song ∈ filteredSongs toLowerCase allSongs searchInput ↔
        song ∈ allSongs ∧
          ∃ pre post,
            (toLowerCase song).data = pre ++ (toLowerCase searchInput).data ++ post) ∧
      List.Sublist (filteredSongs toLowerCase allSongs searchInput) allSongs ∧
      (toLowerCase "" = "" → filteredSongs toLowerCase allSongs "" = allSongs) := by
  refine ⟨rfl, fun song => ?_, ?_, fun h => ?_⟩
  · unfold filteredSongs
    rw [List.mem_filter, includes_iff]
  · unfold filteredSongs
    exact List.filter_sublist _
  · unfold filteredSongs
    rw [h, List.filter_eq_self]
    intro song _
    exact includes_empty _

/-- Witness for C17 (amended): the empty query on a three-track library. -/
theorem C17_filteredSongs_by_file_name_witness :
    filteredSongs asciiLower ["Blue.pkl", "red.pkl", "BLUES.pkl"] "" =
      ["Blue.pkl", "red.pkl", "BLUES.pkl"] :=
  (C17_filteredSongs_by_file_name asciiLower ["Blue.pkl", "red.pkl", "BLUES.pkl"] "").2.2.2
    (by decide)

/-! ## Fisher-Yates: every ordering comes from exactly one sequence of choices -/

theorem length_swap (a : List Song) (i j : Nat) : (swap a i j).length = a.length :=
  (swap_perm a i j).length_eq

theorem getElem?_swap_of_ne (a : List Song) (i j k : Nat) (hi : k ≠ i) (hj : k ≠ j) :
    (swap a i j)[k]? = a[k]? := by
  unfold swap
  split
  · rw [List.getElem?_set_ne (Ne.symm hj), List.getElem?_set_ne (Ne.symm hi)]
  · rfl

theorem getElem?_swap_left (a : List Song) (i j : Nat) (hi : i < a.length)
    (hj : j < a.length) : (swap a i j)[i]? = a[j]? := by
  unfold swap
  rw [List.getElem?_eq_getElem hi, List.getElem?_eq_getElem hj]
  dsimp only
  by_cases h : j = i
  · subst h
    rw [List.getElem?_set_self (by simpa using hj)]
  · rw [List.getElem?_set_ne h, List.getElem?_set_self hi]

theorem getElem?_fisherYatesLoop_of_gt (rnd : Nat → Nat) (i : Nat) (a : List Song) (k : Nat)
    (hk : i < k) : (fisherYatesLoop rnd i a)[k]? = a[k]? := by
  induction i generalizing a with
  | zero => rfl
  | succ i ih =>
    simp only [fisherYatesLoop]
    have hm : rnd (i + 1) % (i + 2) < i + 2 := Nat.mod_lt _ (by omega)
    rw [ih _ (by omega), getElem?_swap_of_ne a _ _ k (by omega) (by omega)]

theorem fisherYatesLoop_congr (rnd rnd' : Nat → Nat) (i : Nat) (a : List Song)
    (h : ∀ k, 1 ≤ k → k ≤ i → rnd k % (k + 1) = rnd' k % (k + 1)) :
    fisherYatesLoop rnd i a = fisherYatesLoop rnd' i a := by
  induction i generalizing a with
  | zero => rfl
  | succ i ih =>
    simp only [fisherYatesLoop]
    rw [h (i + 1) (by omega) (le_refl _)]
    exact ih _ (fun k h1 h2 => h k h1 (by omega))

theorem fisherYatesLoop_choices_unique (rnd rnd' : Nat → Nat) (i : Nat) (a : List Song)
    (hnd : a.Nodup) (hi : i < a.length)
    (h : fisherYatesLoop rnd i a = fisherYatesLoop rnd' i a) :
    ∀ k, 1 ≤ k → k ≤ i → rnd k % (k + 1) = rnd' k % (k + 1) := by
  induction i generalizing a with
  | zero =>
    intro k h1 h2
    omega
  | succ i ih =>
    simp only [fisherYatesLoop] at h
    have hj : rnd (i + 1) % (i + 2) < i + 2 := Nat.mod_lt _ (by omega)
    have hj' : rnd' (i + 1) % (i + 2) < i + 2 := Nat.mod_lt _ (by omega)
    have e1 : (fisherYatesLoop rnd i (swap a (i + 1) (rnd (i + 1) % (i + 2))))[i + 1]? =
        a[rnd (i + 1) % (i + 2)]? := by
      rw [getElem?_fisherYatesLoop_of_gt _ _ _ _ (by omega),
        getElem?_swap_left a (i + 1) _ hi (by omega)]
    have e2 : (fisherYatesLoop rnd' i (swap a (i + 1) (rnd' (i + 1) % (i + 2))))[i + 1]? =
        a[rnd' (i + 1) % (i + 2)]? := by
      rw [getElem?_fisherYatesLoop_of_gt _ _ _ _ (by omega),
        getElem?_swap_left a (i + 1) _ hi (by omega)]
    have hget : a[rnd (i + 1) % (i + 2)]? = a[rnd' (i + 1) % (i + 2)]? := by
      rw [← e1, ← e2, h]
    have hjj : rnd (i + 1) % (i + 2) = rnd' (i + 1) % (i + 2) :=
      List.getElem?_inj (by omega) hnd hget
    intro k h1 h2
    by_cases hk : k = i + 1
    · subst hk
      exact hjj
    · rw [← hjj] at h
      exact ih (swap a (i + 1) (rnd (i + 1) % (i + 2)))
        ((swap_perm a _ _).nodup_iff.mpr hnd) (by rw [length_swap]; omega) h k h1 (by omega)

theorem eq_of_perm_of_agree_after_head (a t : List Song) (hnd : a.Nodup)
    (hp : List.Perm t a) (hag : ∀ k, 0 < k → t[k]? = a[k]?) : t = a := by
  cases a with
  | nil => exact hp.eq_nil
  | cons x as =>
    cases t with
    | nil => exact absurd hp.symm.eq_nil (by simp)
    | cons y ts =>
      have hts : ts = as := by
        apply List.ext_getElem?
        intro k
        have := hag (k + 1) (by omega)
        simpa using this
      subst hts
      have hy : y ∈ x :: ts := hp.subset (List.mem_cons_self y ts)
      have htn : (y :: ts).Nodup := hp.nodup_iff.mpr hnd
      rcases List.mem_cons.mp hy with h | h
      · rw [h]
      · exact absurd h (List.nodup_cons.mp htn).1

theorem fisherYatesLoop_reaches (i : Nat) (a t : List Song) (hnd : a.Nodup)
    (hp : List.Perm t a) (hi : i < a.length) (hag : ∀ k, i < k → t[k]? = a[k]?) :
    ∃ rnd, fisherYatesLoop rnd i a = t := by
  induction i generalizing a with
  | zero => exact ⟨fun _ => 0, (eq_of_perm_of_agree_after_head a t hnd hp hag).symm⟩
  | succ i ih =>
    have hlen : t.length = a.length := hp.length_eq
    have hti : i + 1 < t.length := by omega
    have hy : t[i + 1]? = some t[i + 1] := List.getElem?_eq_getElem hti
    have hmem : t[i + 1] ∈ a := hp.subset (List.getElem?_mem hy)
    obtain ⟨j, hj⟩ := List.getElem?_of_mem hmem
    have hjlt : j < a.length := by
      obtain ⟨h, _⟩ := List.getElem?_eq_some_iff.mp hj
      exact h
    have hjle : j ≤ i + 1 := by
      by_contra hgt
      have h1 : t[j]? = a[j]? := hag j (by omega)
      have h2 : t[i + 1]? = t[j]? := by rw [hy, h1, hj]
      have := List.getElem?_inj hti (hp.nodup_iff.mpr hnd) h2
      omega
    have hp' : List.Perm (swap a (i + 1) j) a := swap_perm a _ _
    have hag' : ∀ k, i < k → t[k]? = (swap a (i + 1) j)[k]? := by
      intro k hk
      by_cases hk1 : k = i + 1
      · subst hk1
        rw [getElem?_swap_left a (i + 1) j hi hjlt, hy, hj]
      · rw [getElem?_swap_of_ne a (i + 1) j k hk1 (by omega)]
        exact hag k (by omega)
    obtain ⟨rnd0, h0⟩ := ih (swap a (i + 1) j) (hp'.nodup_iff.mpr hnd) (hp.trans hp'.symm)
      (by rw [length_swap]; omega) hag'
    refine ⟨fun k => if k = i + 1 then j else rnd0 k, ?_⟩
    simp only [fisherYatesLoop, if_true]
    rw [Nat.mod_eq_of_lt (by omega)]
    rw [fisherYatesLoop_congr _ rnd0 i _ (fun k h1 h2 => by
      have hne : k ≠ i + 1 := by omega
      simp only [hne, if_false])]
    exact h0

theorem fisherYates_reaches (l t : List Song) (hnd : l.Nodup) (hp : List.Perm t l) :
    ∃ rnd, fisherYates rnd l = t := by
  unfold fisherYates
  by_cases hl : l.length = 0
  · have hnil : l = [] := List.length_eq_zero.mp hl
    subst hnil
    exact ⟨fun _ => 0, hp.eq_nil.symm⟩
  · apply fisherYatesLoop_reaches (l.length - 1) l t hnd hp (by omega)
    intro k hk
    rw [List.getElem?_eq_none (by rw [hp.length_eq]; omega),
      List.getElem?_eq_none (by omega)]

theorem fisherYates_choices_unique (l : List Song) (hnd : l.Nodup) (rnd rnd' : Nat → Nat)
    (h : fisherYates rnd l = fisherYates rnd' l) :
    ∀ i, 1 ≤ i → i < l.length → rnd i % (i + 1) = rnd' i % (i + 1) := by
  intro i h1 h2
  exact fisherYatesLoop_choices_unique rnd rnd' (l.length - 1) l hnd (by omega) h i h1
    (by omega)

theorem getD_map_range (f : Nat → Nat) (n k : Nat) (hk : k < n) :
    ((List.range n).map f).getD k 0 = f k := by
  rw [List.getD_eq_getElem?_getD, List.getElem?_map, List.getElem?_range hk]
  rfl

theorem choiceSource_of_valid (n : Nat) (cs : List Nat) (hv : ValidChoices n cs) (i : Nat)
    (h1 : 1 ≤ i) (h2 : i < n) : choiceSource cs i % (i + 1) = cs.getD (i - 1) 0 := by
  unfold choiceSource
  have h := hv.2 (i - 1) (by rw [hv.1]; omega)
  exact Nat.mod_eq_of_lt (by omega)

/-- C18. The Fisher-Yates loop of `shuffleQueue` and `shuffleAll` is uniform:
with each `Math.floor(Math.random() * (i + 1))` a free choice `j_i ∈ {0, …, i}`
for `i = n - 1` down to `1`, every outcome is an ordering of the list, and for
every list `l` of pairwise-distinct elements each ordering `t` of `l` is
produced by exactly one sequence of choices (two random sources producing `t`
draw the same `j_i` at every loop index). -/
theorem C18_fisherYates_each_ordering_once (l : List Song) (hnd : l.Nodup) (t : List Song)
    (ht : List.Perm t l) :
    (∀ rnd, List.Perm (fisherYates rnd l) l) ∧
      (∃! cs : List Nat, ValidChoices l.length cs ∧ fisherYates (choiceSource cs) l = t) ∧
      (∀ rnd rnd', fisherYates rnd l = t → fisherYates rnd' l = t →
        ∀ i, 1 ≤ i → i < l.length → rnd i % (i + 1) = rnd' i % (i + 1)) := by
  refine ⟨fun rnd => fisherYates_perm rnd l, ?_, ?_⟩
  · obtain ⟨rnd, hr⟩ := fisherYates_reaches l t hnd ht
    have hvalid : ValidChoices l.length
        ((List.range (l.length - 1)).map (fun k => rnd (k + 1) % (k + 2))) := by
      refine ⟨by simp, ?_⟩
      intro k hk
      have hk2 : k < l.length - 1 := by simpa using hk
      rw [getD_map_range _ _ _ hk2]
      have := Nat.mod_lt (rnd (k + 1)) (show 0 < k + 2 by omega)
      omega
    refine ⟨(List.range (l.length - 1)).map (fun k => rnd (k + 1) % (k + 2)),
      ⟨hvalid, ?_⟩, ?_⟩
    · rw [← hr]
      unfold fisherYates
      apply fisherYatesLoop_congr
      intro k h1 h2
      rw [choiceSource_of_valid l.length _ hvalid k h1 (by omega),
        getD_map_range _ _ _ (by omega)]
      have hk : k - 1 + 1 = k := by omega
      have hk' : k - 1 + 2 = k + 1 := by omega
      rw [hk, hk']
    · rintro cs ⟨hv, hcs⟩
      have hu := fisherYates_choices_unique l hnd (choiceSource cs) rnd (by rw [hcs, hr])
      apply List.ext_getElem?
      intro k
      by_cases hk : k < l.length - 1
      · have h1 := hu (k + 1) (by omega) (by omega)
        rw [choiceSource_of_valid l.length cs hv (k + 1) (by omega) (by omega)] at h1
        have hkk : k + 1 - 1 = k := by omega
        rw [hkk, List.getD_eq_getElem?_getD] at h1
        have hlt : k < cs.length := by rw [hv.1]; exact hk
        rw [List.getElem?_eq_getElem hlt] at h1 ⊢
        rw [List.getElem?_map, List.getElem?_range hk]
        simp only [Option.getD_some] at h1
        simp only [Option.map_some']
        rw [h1]
      · rw [List.getElem?_eq_none (by rw [hv.1]; omega),
          List.getElem?_eq_none (by simp; omega)]
  · intro rnd rnd' h1 h2
    exact fisherYates_choices_unique l hnd rnd rnd' (by rw [h1, h2])

/-- Witness for C18: the ordering `[C, A, B]` of `[A, B, C]`. -/
theorem C18_fisherYates_each_ordering_once_witness :
    ∃! cs : List Nat, ValidChoices [songA, songB, songC].length cs ∧
      fisherYates (choiceSource cs) [songA, songB, songC] = [songC, songA, songB] :=
  (C18_fisherYates_each_ordering_once [songA, songB, songC] (by decide)
    [songC, songA, songB] (by decide)).2.1

/-- The sequence of choices `j_1 = 0`, `j_2 = 1` turns `[A, B, C]` into
`[C, A, B]`. -/
theorem fisherYates_demo :
    ValidChoices 3 [0, 1] ∧
      fisherYates (choiceSource [0, 1]) [songA, songB, songC] = [songC, songA, songB] := by
  decide

/-! ## Uniqueness of the queue entries, and the current track after a removal -/

theorem nodup_addToQueue (s : State) (t : Song) (hnd : s.queue.Nodup) :
    (addToQueue s t).2.queue.Nodup := by
  unfold addToQueue
  split
  · next h =>
    show (s.queue ++ [t]).Nodup
    rw [List.nodup_append]
    refine ⟨hnd, List.nodup_singleton t, ?_⟩
    intro x hx hy
    rw [List.mem_singleton] at hy
    subst hy
    exact h hx
  · exact hnd

theorem nodup_foldl_addToQueue (songs : List Song) (acc : Nat × State)
    (h : acc.2.queue.Nodup) :
    (songs.foldl
      (fun (acc : Nat × State) song =>
        let r := addToQueue acc.2 song
        (if r.1 then acc.1 + 1 else acc.1, r.2)) acc).2.queue.Nodup := by
  induction songs generalizing acc with
  | nil => exact h
  | cons x t ih =>
    simp only [List.foldl_cons]
    exact ih _ (nodup_addToQueue acc.2 x h)

theorem nodup_removeFromQueue (s : State) (i : Int) (hnd : s.queue.Nodup) :
    (removeFromQueue s i).queue.Nodup := by
  unfold removeFromQueue
  split
  · next hb =>
    have hq : (splice1 s.queue i).Nodup := by
      rw [splice1_of_inBounds s.queue i hb.1 hb.2]
      exact hnd.sublist (List.eraseIdx_sublist _ _)
    dsimp only
    split <;> exact hq
  · exact hnd

theorem splice1_sublist (a : List Song) (i : Int) : List.Sublist (splice1 a i) a := by
  unfold splice1
  exact List.eraseIdx_sublist _ _

theorem arrayGet_mem_or_undefined (a : List Song) (i : Int) :
    arrayGet a i ∈ a ∨ arrayGet a i = Song.undefined := by
  unfold arrayGet
  split
  · rw [List.getD_eq_getElem?_getD]
    cases h : a[i.toNat]? with
    | none => exact Or.inr rfl
    | some x => exact Or.inl (List.getElem?_mem h)
  · exact Or.inr rfl

theorem nodup_shuffleQueue (s : State) (rnd : Nat → Nat) (hnd : s.queue.Nodup)
    (h : Song.undefined ∉ s.queue ∨
      (0 ≤ s.currentIndex ∧ s.currentIndex < s.queue.length)) :
    (shuffleQueue s rnd).queue.Nodup := by
  unfold shuffleQueue
  split
  · dsimp only
    by_cases hb : 0 ≤ s.currentIndex ∧ s.currentIndex < s.queue.length
    · obtain ⟨x, hx⟩ := exists_getElem?_of_inBounds s.queue s.currentIndex hb.1 hb.2
      rw [arrayGet_of_getElem? s.queue s.currentIndex x hb.1 hx,
        splice1_of_inBounds s.queue s.currentIndex hb.1 hb.2]
      have hp : List.Perm (x :: fisherYates rnd (s.queue.eraseIdx s.currentIndex.toNat))
          s.queue :=
        ((fisherYates_perm rnd _).cons x).trans (cons_eraseIdx_perm s.queue _ x hx)
      exact hp.nodup_iff.mpr hnd
    · have hu : Song.undefined ∉ s.queue := by
        rcases h with h | h
        · exact h
        · exact absurd h hb
      have hg : arrayGet s.queue s.currentIndex = Song.undefined := by
        unfold arrayGet
        split
        · next h0 =>
          rw [List.getD_eq_getElem?_getD, List.getElem?_eq_none]
          · rfl
          · have : ¬ s.currentIndex < s.queue.length := fun h1 => hb ⟨h0, h1⟩
            omega
        · rfl
      rw [hg, List.nodup_cons]
      have hsub := splice1_sublist s.queue s.currentIndex
      have hperm := fisherYates_perm rnd (splice1 s.queue s.currentIndex)
      refine ⟨fun hmem => hu (hsub.subset (hperm.subset hmem)), ?_⟩
      exact hperm.nodup_iff.mpr (hnd.sublist hsub)
  · exact hnd

/-- C19. Queue uniqueness is preserved by the queue-editing operations: if no
track occurs twice in the queue, then none occurs twice after `addToQueue(t)`,
`addMultipleToQueue(ts)` (any `ts`, repeats included), `removeFromQueue(i)` or
`shuffleQueue` (any random choices), the last for a queue of tracks (no
`undefined` entry) or an in-bounds `currentIndex`. -/
theorem C19_queue_uniqueness_preserved (s : State) (hnd : s.queue.Nodup) (t : Song)
    (ts : List Song) (i : Int) (rnd : Nat → Nat) :
    (addToQueue s t).2.queue.Nodup ∧
      (addMultipleToQueue s ts).2.queue.Nodup ∧
      (removeFromQueue s i).queue.Nodup ∧
      ((Song.undefined ∉ s.queue ∨
          (0 ≤ s.currentIndex ∧ s.currentIndex < s.queue.length)) →
        (shuffleQueue s rnd).queue.Nodup) :=
  ⟨nodup_addToQueue s t hnd, nodup_foldl_addToQueue ts (0, s) hnd,
   nodup_removeFromQueue s i hnd, nodup_shuffleQueue s rnd hnd⟩

/-- Witness for C19: the four operations on the queue `[A, B, C]`. -/
theorem C19_queue_uniqueness_preserved_witness :
    (addMultipleToQueue atLastOff [songB, Song.file "D.pkl", Song.file "D.pkl"]).2.queue.Nodup ∧
      (shuffleQueue atLastOff (fun i => i + 1)).queue.Nodup :=
  ⟨(C19_queue_uniqueness_preserved atLastOff (by decide) songA
      [songB, Song.file "D.pkl", Song.file "D.pkl"] 1 (fun i => i + 1)).2.1,
   (C19_queue_uniqueness_preserved atLastOff (by decide) songA
      [songB, Song.file "D.pkl", Song.file "D.pkl"] 1 (fun i => i + 1)).2.2.2
      (Or.inr (by decide))⟩

theorem eraseIdx_current (q : List Song) (hnd : q.Nodup) (c i : Nat) (hc : c < q.length)
    (hi : i < q.length) (hic : i ≠ c) :
    ((q.eraseIdx i)[if q.length - 1 ≤ c ∧ 0 < c then c - 1 else c]? = q[c]? ↔
        (c < i ∨ c = q.length - 1)) ∧
      (i < c → c ≠ q.length - 1 →
        (q.eraseIdx i)[if q.length - 1 ≤ c ∧ 0 < c then c - 1 else c]? = q[c + 1]?) := by
  by_cases hlast : c = q.length - 1
  · have hlt : i < c := by omega
    have hcond : q.length - 1 ≤ c ∧ 0 < c := ⟨by omega, by omega⟩
    rw [if_pos hcond, List.getElem?_eraseIdx_of_ge q i (c - 1) (by omega)]
    have hcc : c - 1 + 1 = c := by omega
    rw [hcc]
    exact ⟨⟨fun _ => Or.inr hlast, fun _ => rfl⟩, fun _ h => absurd hlast h⟩
  · have hcond : ¬ (q.length - 1 ≤ c ∧ 0 < c) := by
      intro h
      omega
    rw [if_neg hcond]
    by_cases hlt : c < i
    · rw [List.getElem?_eraseIdx_of_lt q i c hlt]
      exact ⟨⟨fun _ => Or.inl hlt, fun _ => rfl⟩, fun h _ => absurd h (by omega)⟩
    · rw [List.getElem?_eraseIdx_of_ge q i c (by omega)]
      refine ⟨⟨fun h => ?_, fun h => ?_⟩, fun _ _ => rfl⟩
      · have := List.getElem?_inj hc hnd h.symm
        omega
      · omega

theorem removeFromQueue_queue_of_inBounds (s : State) (i : Int) (hi0 : 0 ≤ i)
    (hi1 : i < s.queue.length) :
    (removeFromQueue s i).queue = s.queue.eraseIdx i.toNat := by
  unfold removeFromQueue
  rw [if_pos ⟨hi0, hi1⟩]
  dsimp only
  split <;> exact splice1_of_inBounds s.queue i hi0 hi1

theorem removeFromQueue_currentIndex_of_inBounds (s : State) (i : Int) (hi0 : 0 ≤ i)
    (hi1 : i < s.queue.length) :
    (removeFromQueue s i).currentIndex =
      if ((s.queue.length - 1 : Nat) : Int) ≤ s.currentIndex ∧ 0 < s.currentIndex then
        s.currentIndex - 1
      else s.currentIndex := by
  unfold removeFromQueue
  rw [if_pos ⟨hi0, hi1⟩]
  dsimp only
  rw [length_splice1_of_inBounds s.queue i hi0 hi1]
  split <;> rfl

/-- C20. Effect of a removal on the current track: for every queue of
pairwise-distinct tracks with in-bounds `currentIndex = c` and every in-bounds
index `i ≠ c`, after `removeFromQueue(i)` the track at the new `currentIndex` is
the track that was current before if and only if `i > c` or `c` was the last
index; when `i < c` and `c` was not the last index, `currentIndex` stays `c` and
the current track becomes the track formerly at `c + 1`. -/
theorem C20_removeFromQueue_current_track (s : State) (i : Int) (hnd : s.queue.Nodup)
    (hc0 : 0 ≤ s.currentIndex) (hc1 : s.currentIndex < s.queue.length)
    (hi0 : 0 ≤ i) (hi1 : i < s.queue.length) (hic : i ≠ s.currentIndex) :
    ((removeFromQueue s i).queue[(removeFromQueue s i).currentIndex.toNat]? =
          s.queue[s.currentIndex.toNat]? ↔
        (s.currentIndex < i ∨ s.currentIndex = (s.queue.length : Int) - 1)) ∧
      (i < s.currentIndex → s.currentIndex ≠ (s.queue.length : Int) - 1 →
        (removeFromQueue s i).currentIndex = s.currentIndex ∧
          (removeFromQueue s i).queue[(removeFromQueue s i).currentIndex.toNat]? =
            s.queue[s.currentIndex.toNat + 1]?) ∧
      (∃ x, s.queue[s.currentIndex.toNat]? = some x) ∧
      (0 ≤ (removeFromQueue s i).currentIndex ∧
        (removeFromQueue s i).currentIndex < (removeFromQueue s i).queue.length) := by
  have hq := removeFromQueue_queue_of_inBounds s i hi0 hi1
  have hci := removeFromQueue_currentIndex_of_inBounds s i hi0 hi1
  have hcn : s.currentIndex.toNat < s.queue.length := by omega
  have hin : i.toNat < s.queue.length := by omega
  have hne : i.toNat ≠ s.currentIndex.toNat := by omega
  have hcore := eraseIdx_current s.queue hnd s.currentIndex.toNat i.toNat hcn hin hne
  have hidx : (removeFromQueue s i).currentIndex.toNat =
      if s.queue.length - 1 ≤ s.currentIndex.toNat ∧ 0 < s.currentIndex.toNat then
        s.currentIndex.toNat - 1
      else s.currentIndex.toNat := by
    rw [hci]
    split <;> split <;> omega
  have hlen : (removeFromQueue s i).queue.length = s.queue.length - 1 := by
    rw [hq, List.length_eraseIdx, if_pos hin]
  rw [hq, hidx]
  refine ⟨?_, ?_, exists_getElem?_of_inBounds s.queue s.currentIndex hc0 hc1, ?_⟩
  · rw [hcore.1]
    constructor
    · rintro (h | h)
      · exact Or.inl (by omega)
      · exact Or.inr (by omega)
    · rintro (h | h)
      · exact Or.inl (by omega)
      · exact Or.inr (by omega)
  · intro h1 h2
    refine ⟨?_, hcore.2 (by omega) (by omega)⟩
    rw [hci, if_neg]
    intro h
    omega
  · rw [← hq, hlen, hci]
    split <;> omega

/-- Witness for C20: removing index 0 from `[A, B, C]` with `B` current makes
`C` current. -/
theorem C20_removeFromQueue_current_track_witness :
    (removeFromQueue atMiddleOne 0).currentIndex = 1 ∧
      (removeFromQueue atMiddleOne 0).queue[(removeFromQueue atMiddleOne 0).currentIndex.toNat]?
        = atMiddleOne.queue[atMiddleOne.currentIndex.toNat + 1]? :=
  (C20_removeFromQueue_current_track atMiddleOne 0 (by decide) (by decide) (by decide)
    (by decide) (by decide) (by decide)).2.1 (by decide) (by decide)

end Musify
